import Mathlib

/-!
Verification of the rs-lib repository: a generic Fenwick tree
(`crates/fenwick-tree/src/lib.rs`) over an abstract monoid, together with the
gcd/lcm utility (`src/math/gcd_lcm.rs`).

The embedding models `usize` as `Nat` with explicit `% 2 ^ 64` where the source
relies on wrapping (`usize::wrapping_neg`), `Vec<M::Set>` as `List α`, and a
panic (out-of-bounds indexing) as `Option.none`.  Loops are modelled with an
explicit fuel parameter that is always at least the number of iterations the
source loop can perform, so every definition is executable by the kernel.

The abstract algebra traits (`Semigroup`, `Monoid`, `PartialGroup`) live in a
crate whose source is not part of the repository snapshot; following the spec,
a monoid is a carrier with an associative operation `op` and identity `e`, and
a partial group additionally offers `invOp` with the subtraction-like law
`invOp (op x y) x = y` that the spec's range decomposition demands.
-/

namespace RsLib

/-- Faithful model of `fn lsb(i: usize) -> usize { i & i.wrapping_neg() }` with
`usize` taken as 64 bits: `i.wrapping_neg() = (2^64 - i) % 2^64`. -/
def lsb (i : Nat) : Nat := i &&& ((2 ^ 64 - i) % 2 ^ 64)

/-- Mathematical lowest set bit: `low n` is the largest power of two dividing
`n` (and `0` for `n = 0`).  Used to reason about `lsb` on in-range inputs. -/
def low : Nat → Nat
  | 0 => 0
  | (n + 1) => if (n + 1) % 2 = 1 then 1 else 2 * low ((n + 1) / 2)
  decreasing_by simp_wf; omega

/-- Fuel-driven core of `usize::next_power_of_two` (smallest power of two that
is not less than `n`); fuel `n` is ample since the power doubles each step. -/
def npw2Go : Nat → Nat → Nat → Nat
  | 0, _, power => power
  | fuel + 1, n, power => if power < n then npw2Go fuel n (power * 2) else power

/-- Model of `usize::next_power_of_two` as used by `find_range_by`. -/
def nextPow2 (n : Nat) : Nat := npw2Go n n 1

namespace Fenwick

variable {α : Type}

/-- Model of `FenwickTree::with_size`: a backing array of `size` copies of the
monoid identity. -/
def withSize (e : α) (size : Nat) : List α := List.replicate size e

/-- Loop of `FenwickTree::operate`:
`while i < self.len() { tree[i] = op(value, tree[i]); i += lsb(i + 1); }`.
The fuel (one more than the tree length at the top-level call) dominates the
iteration count because `i` strictly increases while it stays below the
length. -/
def operateGo (op : α → α → α) (x : α) : Nat → List α → Nat → List α
  | 0, tree, _ => tree
  | fuel + 1, tree, i =>
    if h : i < tree.length then
      operateGo op x fuel (tree.set i (op x tree[i])) (i + lsb (i + 1))
    else tree

/-- Model of `FenwickTree::operate(index, value)`.  Every slot access in the
source loop is guarded by `i < self.len()`, so the operation never panics and
is modelled as a total function. -/
def operate (op : α → α → α) (tree : List α) (index : Nat) (x : α) : List α :=
  operateGo op x (tree.length + 1) tree index

/-- Model of `impl From<&[M::Set]> for FenwickTree<M>`: start from
`with_size(v.len())` and `operate(i, x)` for each element in order. -/
def fromList (op : α → α → α) (e : α) (v : List α) : List α :=
  v.enum.foldl (fun t p => operate op t p.1 p.2) (withSize e v.length)

/-- Loop of `impl Index<T> for RangeTo<usize>`:
`while i > 0 { ret = op(tree[i - 1], ret); i -= lsb(i); }`.
`tree[i - 1]` is an unguarded index, so an out-of-bounds access yields `none`
(the Rust panic).  Fuel `i` dominates the iteration count because `i` strictly
decreases while positive. -/
def foldGo (op : α → α → α) (tree : List α) : Nat → Nat → α → Option α
  | 0, i, ret => if i = 0 then some ret else none
  | fuel + 1, i, ret =>
    if i = 0 then some ret
    else
      match tree[i - 1]? with
      | some a => foldGo op tree fuel (i - lsb i) (op a ret)
      | none => none

/-- Model of `fold(..end)` (the `RangeTo<usize>` instance of `Index`). -/
def foldTo (op : α → α → α) (e : α) (tree : List α) (endIdx : Nat) : Option α :=
  foldGo op tree endIdx endIdx e

/-- Model of `fold(start..end)` (the `Range<usize>` instance):
`inverse_operate(fold(..end), fold(..start))`. -/
def foldRange (op : α → α → α) (invOp : α → α → α) (e : α)
    (tree : List α) (start endIdx : Nat) : Option α :=
  match foldTo op e tree endIdx, foldTo op e tree start with
  | some hi, some lo => some (invOp hi lo)
  | _, _ => none

/-- First descent of `find_range_by`: from level `len` downward, extend on
`Less`, skip on `Greater` or out-of-range levels, and stop on `Equal`,
returning the level, position and running total at the break (level `0` when
no `Equal` was met).  Fuel dominates the iteration count since the level
halves each step. -/
def phase1 (op : α → α → α) (f : α → Ordering) (tree : List α) :
    Nat → Nat → Nat → α → Nat × Nat × α
  | 0, _, i, total => (0, i, total)
  | fuel + 1, len, i, total =>
    if len = 0 then (0, i, total)
    else if h : i + len - 1 < tree.length then
      let tmp := op total tree[i + len - 1]
      match f tmp with
      | .lt => phase1 op f tree fuel (len / 2) (i + len) tmp
      | .gt => phase1 op f tree fuel (len / 2) i total
      | .eq => (len, i, total)
    else phase1 op f tree fuel (len / 2) i total

/-- Second descent of `find_range_by`: dual-cursor refinement.  Both cursors
read the slot `tree[i + len - 1]` (with `i` frozen at the phase-1 break
position, exactly as in the source); the access is unguarded, so `none`
models the panic. -/
def phase2 (op : α → α → α) (f : α → Ordering) (tree : List α) (i : Nat) :
    Nat → Nat → Nat → α → Nat → α → Option (Nat × Nat)
  | 0, _, lowerI, _, upperI, _ => some (lowerI, upperI)
  | fuel + 1, len, lowerI, lowerTotal, upperI, upperTotal =>
    if len = 0 then some (lowerI, upperI)
    else
      match tree[i + len - 1]? with
      | none => none
      | some slot =>
        let lowerTmp := op lowerTotal slot
        let lowerNext : Nat × α :=
          match f lowerTmp with
          | .lt => (lowerI + len, lowerTmp)
          | _ => (lowerI, lowerTotal)
        let upperTmp := op upperTotal slot
        let upperNext : Nat × α :=
          match f upperTmp with
          | .gt => (upperI, upperTotal)
          | _ => (upperI + len, upperTmp)
        phase2 op f tree i fuel (len / 2)
          lowerNext.1 lowerNext.2 upperNext.1 upperNext.2

/-- Model of `Bisect::find_range_by` for `FenwickTree`: the two-phase descent
returning the half-open range `lower..upper`. -/
def findRangeBy (op : α → α → α) (e : α) (f : α → Ordering)
    (tree : List α) : Option (Nat × Nat) :=
  let p0 := nextPow2 tree.length
  match phase1 op f tree (p0 + 1) p0 0 e with
  | (len, i, total) => phase2 op f tree i (len + 1) len i total i total

/-- Formalisation of the spec's "sequential left-to-right combine of
`v[0..k]`" (prefix of length `k`, folded from the identity). -/
def seqFold (op : α → α → α) (e : α) (v : List α) (k : Nat) : α :=
  (v.take k).foldl op e

/-- Formalisation of the spec's "direct left-to-right combine of `v[a..b]`". -/
def segFold (op : α → α → α) (e : α) (v : List α) (a b : Nat) : α :=
  ((v.drop a).take (b - a)).foldl op e

end Fenwick

/-- Loop of `CommonNum::gcd` from `src/math/gcd_lcm.rs`:
`let mut r = a.rem_euclid(b); while r > 0 { a = b; b = r; r = a.rem_euclid(b); }
a.div_euclid(b)`.  Fuel `b` dominates the iteration count since `b` strictly
decreases.  The claims only concern positive inputs, where `b` never reaches
`0` (Rust would panic on division by zero there). -/
def gcdLoop : Nat → Nat → Nat → Nat
  | 0, a, b => a / b
  | fuel + 1, a, b =>
    let r := a % b
    if r > 0 then gcdLoop fuel b r else a / b

/-- Model of `CommonNum::gcd` for unsigned integers: order the arguments so
that `a >= b`, run the Euclidean loop, and return `a.div_euclid(b)` (sic). -/
def gcdCode (x y : Nat) : Nat :=
  let p := if x ≥ y then (x, y) else (y, x)
  gcdLoop (p.2 + 1) p.1 p.2

/-- Model of `CommonNum::lcm`: `self / self.gcd(other) * other`. -/
def lcmCode (x y : Nat) : Nat := x / gcdCode x y * y

/-- Multiplication table of the symmetric group S3, a concrete non-commutative
group used to test the Fenwick tree over non-commutative structures.
Elements: `0` the identity, `1 = (0 1)`, `2 = (0 2)`, `3 = (1 2)`,
`4 = (0 1 2)`, `5 = (0 2 1)`; `mulS3 g h` is "apply `h`, then `g`". -/
def mulS3 : Fin 6 → Fin 6 → Fin 6
  | 0, b => b
  | 1, 0 => 1 | 1, 1 => 0 | 1, 2 => 5 | 1, 3 => 4 | 1, 4 => 3 | 1, 5 => 2
  | 2, 0 => 2 | 2, 1 => 4 | 2, 2 => 0 | 2, 3 => 5 | 2, 4 => 1 | 2, 5 => 3
  | 3, 0 => 3 | 3, 1 => 5 | 3, 2 => 4 | 3, 3 => 0 | 3, 4 => 2 | 3, 5 => 1
  | 4, 0 => 4 | 4, 1 => 2 | 4, 2 => 3 | 4, 3 => 1 | 4, 4 => 5 | 4, 5 => 0
  | 5, 0 => 5 | 5, 1 => 3 | 5, 2 => 1 | 5, 3 => 2 | 5, 4 => 0 | 5, 5 => 4

/-- Group inverse in S3 (the two 3-cycles swap, the rest are involutions). -/
def invS3 : Fin 6 → Fin 6
  | 4 => 5 | 5 => 4 | a => a

/-- Subtraction-like inverse operation turning S3 into a partial group in the
spec's sense: `invOpS3 (mulS3 x y) x = y`. -/
def invOpS3 (x y : Fin 6) : Fin 6 := mulS3 (invS3 y) x


/-! Arithmetic theory of the lowest set bit.  `low` is characterised through
the decomposition of a positive number as `2 ^ t * (2 * m + 1)`, and `lsb`
(the code's `i & i.wrapping_neg()`) is shown to agree with `low` on the
whole `usize` range. -/

theorem low_odd {n : Nat} (h : n % 2 = 1) : low n = 1 := by
  cases n with
  | zero => omega
  | succ m => simp [low, h]

theorem low_two_mul (k : Nat) : low (2 * k) = 2 * low k := by
  cases k with
  | zero => simp [low]
  | succ m =>
    have h : 2 * (m + 1) = (2 * m + 1) + 1 := by ring
    rw [h, low]
    have : (2 * m + 1 + 1) % 2 = 0 := by omega
    simp [this]
    congr 1
    omega

theorem low_pow_mul (t m : Nat) : low (2 ^ t * (2 * m + 1)) = 2 ^ t := by
  induction t with
  | zero => simpa using low_odd (n := 2 * m + 1) (by omega)
  | succ t ih =>
    have h : 2 ^ (t + 1) * (2 * m + 1) = 2 * (2 ^ t * (2 * m + 1)) := by ring
    rw [h, low_two_mul, ih, pow_succ]
    ring

theorem exists_two_pow_odd {n : Nat} (hn : 0 < n) :
    ∃ t m, n = 2 ^ t * (2 * m + 1) := by
  obtain ⟨k, m, hm, heq⟩ := Nat.exists_eq_two_pow_mul_odd (Nat.pos_iff_ne_zero.mp hn)
  obtain ⟨r, hr⟩ := hm
  exact ⟨k, r, by rw [heq, hr]⟩

theorem low_decomp {n : Nat} (hn : 0 < n) :
    ∃ t m, n = 2 ^ t * (2 * m + 1) ∧ low n = 2 ^ t := by
  obtain ⟨t, m, h⟩ := exists_two_pow_odd hn
  exact ⟨t, m, h, by rw [h, low_pow_mul]⟩

theorem low_pos {n : Nat} (hn : 0 < n) : 0 < low n := by
  obtain ⟨t, m, _, h2⟩ := low_decomp hn
  rw [h2]
  exact Nat.pos_pow_of_pos t (by omega)

theorem low_le {n : Nat} : low n ≤ n := by
  rcases Nat.eq_zero_or_pos n with rfl | hn
  · simp [low]
  · obtain ⟨t, m, h1, h2⟩ := low_decomp hn
    rw [h2, h1]
    exact Nat.le_mul_of_pos_right _ (by omega)

/-- Adding a multiple of `2 ^ k` on the left does not change the lowest set
bit of a number below `2 ^ k`. -/
theorem low_add_mul_pow {k c x : Nat} (hx : 0 < x) (hxk : x < 2 ^ k) :
    low (2 ^ k * c + x) = low x := by
  obtain ⟨t, m, h1, h2⟩ := low_decomp hx
  have ht : t < k := by
    have h3 : 2 ^ t ≤ x := by
      rw [h1]; exact Nat.le_mul_of_pos_right _ (by omega)
    exact (Nat.pow_lt_pow_iff_right (by omega)).mp (lt_of_le_of_lt h3 hxk)
  obtain ⟨d, hd⟩ : ∃ d, k = t + (d + 1) := ⟨k - t - 1, by omega⟩
  have hk : 2 ^ k * c + x = 2 ^ t * (2 * (2 ^ d * c + m) + 1) := by
    rw [h1, hd, pow_add, pow_succ]
    ring
  rw [hk, low_pow_mul, h2]

/-- A positive number below `2 ^ c`, together with its lowest set bit, still
fits below `2 ^ c`. -/
theorem add_low_le_pow {s c : Nat} (hs : 0 < s) (hsc : s < 2 ^ c) :
    s + low s ≤ 2 ^ c := by
  obtain ⟨u, w, h1, h2⟩ := low_decomp hs
  have hu : u < c := by
    have h3 : 2 ^ u ≤ s := by
      rw [h1]; exact Nat.le_mul_of_pos_right _ (by omega)
    exact (Nat.pow_lt_pow_iff_right (by omega)).mp (lt_of_le_of_lt h3 hsc)
  obtain ⟨d, hd⟩ : ∃ d, c = u + (d + 1) := ⟨c - u - 1, by omega⟩
  have hpc : 2 ^ c = 2 ^ u * (2 * 2 ^ d) := by rw [hd, pow_add, pow_succ]; ring
  have hw : 2 * w + 1 < 2 * 2 ^ d := by
    have := hsc
    rw [h1, hpc] at this
    exact Nat.lt_of_mul_lt_mul_left this
  calc s + low s = 2 ^ u * (2 * w + 2) := by rw [h2, h1]; ring
    _ ≤ 2 ^ u * (2 * 2 ^ d) := Nat.mul_le_mul_left _ (by omega)
    _ = 2 ^ c := hpc.symm

/-- Step lemma, forward half: a position strictly inside `(b - low b, b)`
jumps to a position that is at most `b`. -/
theorem low_step_into {a b : Nat} (hab : a < b) (h : b - low b < a) :
    a + low a ≤ b := by
  have hb : 0 < b := by omega
  obtain ⟨c, M, hb1, hb2⟩ := low_decomp hb
  have hbs : b = 2 ^ (c + 1) * M + 2 ^ c := by rw [hb1, pow_succ]; ring
  have hblow : b - low b = 2 ^ (c + 1) * M := by rw [hb2, hbs]; omega
  set s := a - 2 ^ (c + 1) * M with hs
  have hs0 : 0 < s := by omega
  have hsc : s < 2 ^ c := by
    have : a < 2 ^ (c + 1) * M + 2 ^ c := by rw [← hbs]; exact hab
    omega
  have ha : a = 2 ^ (c + 1) * M + s := by omega
  have hlowa : low a = low s := by
    rw [ha]
    exact low_add_mul_pow hs0 (lt_trans hsc (by
      have : (2:Nat) ^ c < 2 ^ (c + 1) := Nat.pow_lt_pow_right (by omega) (by omega)
      exact this))
  have := add_low_le_pow hs0 hsc
  rw [hlowa, ha, hbs]
  omega

/-- Step lemma, backward half: a position at or below `b - low b` jumps to a
position at or below `b - low b` whenever the jump stays at or below `b`. -/
theorem low_step_skip {a b : Nat} (ha : 0 < a) (h1 : a ≤ b - low b)
    (h2 : a + low a ≤ b) : a + low a ≤ b - low b := by
  have hb : 0 < b := by
    have := low_pos ha
    omega
  obtain ⟨t, u, ha1, ha2⟩ := low_decomp ha
  obtain ⟨c, M, hb1, hb2⟩ := low_decomp hb
  have hbs : b = 2 ^ (c + 1) * M + 2 ^ c := by rw [hb1, pow_succ]; ring
  have hblow : b - low b = 2 ^ (c + 1) * M := by rw [hb2, hbs]; omega
  have hp : a + low a = 2 ^ (t + 1) * (u + 1) := by rw [ha2, ha1, pow_succ]; ring
  by_contra hcon
  push_neg at hcon
  rw [hblow] at hcon h1
  rcases le_or_lt c t with hct | htc
  · -- low a ≥ low b: the jump target is a multiple of 2^(c+1) strictly
    -- inside (2^(c+1)*M, 2^(c+1)*M + 2^c], impossible.
    have hdvd : 2 ^ (c + 1) ∣ a + low a := by
      rw [hp]
      exact Dvd.dvd.mul_right (pow_dvd_pow 2 (by omega)) _
    have hdvd2 : 2 ^ (c + 1) ∣ a + low a - 2 ^ (c + 1) * M :=
      Nat.dvd_sub' hdvd (Dvd.intro M rfl)
    have hle : 2 ^ (c + 1) ≤ a + low a - 2 ^ (c + 1) * M :=
      Nat.le_of_dvd (by omega) hdvd2
    have hub : a + low a ≤ 2 ^ (c + 1) * M + 2 ^ c := by rw [← hbs]; exact h2
    have : (2:Nat) ^ c < 2 ^ (c + 1) := Nat.pow_lt_pow_right (by omega) (by omega)
    omega
  · -- low a < low b: both the jump target and b - low b are multiples of
    -- 2^(t+1) at distance at most low a = 2^t, impossible.
    have hdvd : 2 ^ (t + 1) ∣ a + low a := by
      rw [hp]
      exact Dvd.dvd.mul_right dvd_rfl _
    have hdvd1 : 2 ^ (t + 1) ∣ 2 ^ (c + 1) * M :=
      Dvd.dvd.mul_right (pow_dvd_pow 2 (by omega)) _
    have hdvd2 : 2 ^ (t + 1) ∣ a + low a - 2 ^ (c + 1) * M :=
      Nat.dvd_sub' hdvd hdvd1
    have hle : 2 ^ (t + 1) ≤ a + low a - 2 ^ (c + 1) * M :=
      Nat.le_of_dvd (by omega) hdvd2
    have hlowa : a + low a ≤ a + 2 ^ t := by rw [ha2]
    have : (2:Nat) ^ t < 2 ^ (t + 1) := Nat.pow_lt_pow_right (by omega) (by omega)
    omega

/-- Characterisation of one step of the update path: for `a < b`, the path
point after `a` still "covers" `b` exactly when `a` does, where covering
means lying in the interval `(b - low b, b]`. -/
theorem low_cond_step {a b : Nat} (ha : 0 < a) (hab : a < b) :
    (b - low b < a + low a ∧ a + low a ≤ b) ↔ b - low b < a := by
  constructor
  · rintro ⟨h1, h2⟩
    by_contra hc
    push_neg at hc
    have := low_step_skip ha hc h2
    omega
  · intro h
    have hla := low_pos ha
    exact ⟨by omega, low_step_into hab h⟩

/-! Bridging `lsb` (the wrapping 64-bit formula) to `low`. -/

theorem land_oo (a b : Nat) : (2 * a + 1) &&& (2 * b + 1) = 2 * (a &&& b) + 1 := by
  have h := Nat.land_bit true a true b
  simpa [Nat.bit] using h

theorem land_ee (a b : Nat) : (2 * a) &&& (2 * b) = 2 * (a &&& b) := by
  have h := Nat.land_bit false a false b
  simpa [Nat.bit] using h

theorem land_oe (a b : Nat) : (2 * a + 1) &&& (2 * b) = 2 * (a &&& b) := by
  have h := Nat.land_bit true a false b
  simpa [Nat.bit] using h

theorem land_eo (a b : Nat) : (2 * a) &&& (2 * b + 1) = 2 * (a &&& b) := by
  have h := Nat.land_bit false a true b
  simpa [Nat.bit] using h

/-- The bits of `a` and of its complement below `2 ^ K` are disjoint. -/
theorem land_compl_self : ∀ (K a : Nat), a < 2 ^ K → a &&& (2 ^ K - 1 - a) = 0 := by
  intro K
  induction K with
  | zero =>
    intro a h
    have ha : a = 0 := by omega
    subst ha
    simp
  | succ K ih =>
    intro a h
    have hpow : (2:Nat) ^ (K + 1) = 2 * 2 ^ K := by rw [pow_succ]; ring
    have h1 : (1:Nat) ≤ 2 ^ K := Nat.one_le_two_pow
    rcases Nat.even_or_odd a with ⟨b, hb⟩ | ⟨b, hb⟩
    · have hb' : a = 2 * b := by omega
      have hblt : b < 2 ^ K := by omega
      have hsub : 2 ^ (K + 1) - 1 - a = 2 * (2 ^ K - 1 - b) + 1 := by omega
      rw [hsub, hb', land_eo, ih b hblt]
    · have hblt : b < 2 ^ K := by omega
      have hsub : 2 ^ (K + 1) - 1 - a = 2 * (2 ^ K - 1 - b) := by omega
      rw [hsub, hb, land_oe, ih b hblt]

/-- On the `usize` range, `i & (2 ^ w - i)` is the lowest set bit of `i`. -/
theorem land_two_pow_sub_eq_low :
    ∀ (i : Nat), ∀ (w : Nat), 0 < i → i < 2 ^ w → i &&& (2 ^ w - i) = low i := by
  intro i
  induction i using Nat.strong_induction_on with
  | _ i ih =>
    intro w hi hw
    obtain ⟨w', rfl⟩ : ∃ w', w = w' + 1 := by
      cases w with
      | zero => simp at hw; omega
      | succ w' => exact ⟨w', rfl⟩
    have hpow : (2:Nat) ^ (w' + 1) = 2 * 2 ^ w' := by rw [pow_succ]; ring
    have h1 : (1:Nat) ≤ 2 ^ w' := Nat.one_le_two_pow
    rcases Nat.even_or_odd i with ⟨b, hb⟩ | ⟨b, hb⟩
    · have hb' : i = 2 * b := by omega
      have hb0 : 0 < b := by omega
      have hblt : b < 2 ^ w' := by omega
      have hsub : 2 ^ (w' + 1) - i = 2 * (2 ^ w' - b) := by omega
      rw [hsub, hb', land_ee, ih b (by omega) w' hb0 hblt, low_two_mul]
    · have hblt : b < 2 ^ w' := by omega
      have hsub : 2 ^ (w' + 1) - i = 2 * (2 ^ w' - 1 - b) + 1 := by omega
      rw [hsub, hb, land_oo, land_compl_self w' b hblt,
        low_odd (show (2 * b + 1) % 2 = 1 by omega)]

/-- On the `usize` range, the code's `lsb` agrees with the mathematical
lowest set bit. -/
theorem lsb_eq_low {i : Nat} (h : i < 2 ^ 64) : lsb i = low i := by
  rcases Nat.eq_zero_or_pos i with rfl | hi
  · have h1 : lsb 0 = 0 := by decide
    have h2 : low 0 = 0 := by simp [low]
    rw [h1, h2]
  · unfold lsb
    rw [Nat.mod_eq_of_lt (by omega : 2 ^ 64 - i < 2 ^ 64)]
    exact land_two_pow_sub_eq_low i 64 hi h

namespace Fenwick

variable {α : Type}

/-- Over a monoid, a left fold from an arbitrary seed factors through the
fold from the identity. -/
theorem foldl_op_init (op : α → α → α) (e : α)
    (hassoc : ∀ a b c, op (op a b) c = op a (op b c))
    (hidl : ∀ a, op e a = a) (hidr : ∀ a, op a e = a) :
    ∀ (l : List α) (x : α), l.foldl op x = op x (l.foldl op e) := by
  intro l
  induction l with
  | nil => intro x; simp [hidr]
  | cons a l ih =>
    intro x
    simp only [List.foldl_cons]
    rw [ih (op x a), ih (op e a), hidl, hassoc]

/-- The prefix fold of length `b` splits as the prefix fold of length `a`
followed by the fold of the segment `[a, b)`. -/
theorem seqFold_split (op : α → α → α) (e : α)
    (hassoc : ∀ a b c, op (op a b) c = op a (op b c))
    (hidl : ∀ a, op e a = a) (hidr : ∀ a, op a e = a)
    (v : List α) {a b : Nat} (hab : a ≤ b) :
    op (seqFold op e v a) (segFold op e v a b) = seqFold op e v b := by
  obtain ⟨d, rfl⟩ : ∃ d, b = a + d := ⟨b - a, by omega⟩
  unfold seqFold segFold
  simp only [Nat.add_sub_cancel_left]
  calc op ((v.take a).foldl op e) (((v.drop a).take d).foldl op e)
      = ((v.drop a).take d).foldl op ((v.take a).foldl op e) :=
        (foldl_op_init op e hassoc hidl hidr _ _).symm
    _ = (v.take a ++ (v.drop a).take d).foldl op e := (List.foldl_append ..).symm
    _ = (v.take (a + d)).foldl op e := by rw [List.take_add]

/-- An empty segment folds to the identity. -/
theorem segFold_of_le (op : α → α → α) (e : α) (v : List α) {a b : Nat}
    (h : b ≤ a) : segFold op e v a b = e := by
  unfold segFold
  rw [show b - a = 0 by omega]
  simp

/-- Extending a segment by its next element. -/
theorem segFold_snoc (op : α → α → α) (e : α) (v : List α) {a m : Nat}
    (ham : a ≤ m) {x : α} (hx : v[m]? = some x) :
    segFold op e v a (m + 1) = op (segFold op e v a m) x := by
  unfold segFold
  rw [show m + 1 - a = (m - a) + 1 by omega, List.take_succ, List.foldl_append,
    List.getElem?_drop, show a + (m - a) = m by omega, hx]
  simp

theorem operateGo_length (op : α → α → α) (x : α) :
    ∀ (fuel : Nat) (tree : List α) (i : Nat),
      (operateGo op x fuel tree i).length = tree.length := by
  intro fuel
  induction fuel with
  | zero => intro tree i; rfl
  | succ fuel ih =>
    intro tree i
    simp only [operateGo]
    split
    · rw [ih]; simp
    · rfl

theorem operate_length (op : α → α → α) (tree : List α) (i : Nat) (x : α) :
    (operate op tree i x).length = tree.length :=
  operateGo_length op x (tree.length + 1) tree i

/-- Slot-level effect of the update loop: starting the walk at position `j`
(0-indexed), slot `p` is multiplied by `x` on the left exactly when the
1-indexed position `p + 1` lies on the update path from `j + 1`, which is
characterised by the interval condition `p + 1 - low (p + 1) ≤ j ≤ p`. -/
theorem operateGo_getElem? (op : α → α → α) (x : α) :
    ∀ (fuel : Nat) (tree : List α) (j : Nat),
      tree.length < 2 ^ 64 → tree.length ≤ j + fuel →
      ∀ p, p < tree.length →
      (operateGo op x fuel tree j)[p]? =
        if j ≤ p ∧ p + 1 - low (p + 1) ≤ j then (tree[p]?).map (op x)
        else tree[p]? := by
  intro fuel
  induction fuel with
  | zero =>
    intro tree j h64 hfuel p hp
    rw [if_neg (by omega)]
    rfl
  | succ fuel ih =>
    intro tree j h64 hfuel p hp
    simp only [operateGo]
    split
    · next hj =>
      have hlsb : lsb (j + 1) = low (j + 1) := lsb_eq_low (by omega)
      have hlow := low_pos (show 0 < j + 1 by omega)
      have hlen' : (tree.set j (op x tree[j])).length = tree.length := by simp
      rw [ih (tree.set j (op x tree[j])) (j + lsb (j + 1))
        (by rw [hlen']; exact h64)
        (by rw [hlen', hlsb]; omega) p (by rw [hlen']; exact hp)]
      rw [hlsb]
      rcases Nat.lt_trichotomy p j with hpj | rfl | hpj
      · rw [if_neg (by omega), if_neg (by omega)]
        exact List.getElem?_set_ne (by omega)
      · rw [if_neg (by omega), if_pos ⟨le_refl p, by omega⟩]
        rw [List.getElem?_set_eq_of_lt _ hj, List.getElem?_eq_getElem hj]
        rfl
      · have hiff := low_cond_step (a := j + 1) (b := p + 1) (by omega) (by omega)
        have hset : (tree.set j (op x tree[j]))[p]? = tree[p]? :=
          List.getElem?_set_ne (by omega)
        by_cases hc : p + 1 - low (p + 1) ≤ j
        · obtain ⟨hA, hB⟩ := hiff.mpr (by omega)
          rw [if_pos ⟨by omega, by omega⟩, if_pos ⟨by omega, by omega⟩, hset]
        · have hc2 : ¬(j + low (j + 1) ≤ p ∧
              p + 1 - low (p + 1) ≤ j + low (j + 1)) := by
            rintro ⟨h1, h2⟩
            have := hiff.mp ⟨by omega, by omega⟩
            omega
          rw [if_neg hc2, if_neg (by omega), hset]
    · next hj =>
      rw [if_neg (by omega)]

/-- Slot-level effect of `operate`. -/
theorem operate_getElem? (op : α → α → α) (tree : List α) (i : Nat) (x : α)
    (h64 : tree.length < 2 ^ 64) (p : Nat) (hp : p < tree.length) :
    (operate op tree i x)[p]? =
      if i ≤ p ∧ p + 1 - low (p + 1) ≤ i then (tree[p]?).map (op x)
      else tree[p]? :=
  operateGo_getElem? op x (tree.length + 1) tree i h64 (by omega) p hp

theorem foldl_operate_length (op : α → α → α) :
    ∀ (ps : List (Nat × α)) (t : List α),
      (ps.foldl (fun t q => operate op t q.1 q.2) t).length = t.length := by
  intro ps
  induction ps with
  | nil => intro t; rfl
  | cons q ps ih =>
    intro t
    simp only [List.foldl_cons]
    rw [ih, operate_length]

theorem fromList_length (op : α → α → α) (e : α) (v : List α) :
    (fromList op e v).length = v.length := by
  unfold fromList
  rw [foldl_operate_length]
  simp [withSize]

/-- Invariant of the construction loop of `From<&[M::Set]>`: after feeding
the first `m` elements of `v`, slot `p` (1-indexed `p + 1`) holds the fold
of `v` over the clipped interval `[p + 1 - low (p + 1), min m (p + 1))`.
Commutativity is essential: the source multiplies the new value on the left
(`op value old`), but the invariant stores the left-to-right fold. -/
theorem fromList_loop (op : α → α → α) (e : α)
    (hassoc : ∀ a b c, op (op a b) c = op a (op b c))
    (hidl : ∀ a, op e a = a) (hidr : ∀ a, op a e = a)
    (hcomm : ∀ a b, op a b = op b a)
    (v : List α) (h64 : v.length < 2 ^ 64) :
    ∀ (w : List α) (m : Nat) (t : List α),
      t.length = v.length →
      v.drop m = w →
      (∀ p, p < v.length →
        t[p]? = some (segFold op e v (p + 1 - low (p + 1)) (min m (p + 1)))) →
      ∀ p, p < v.length →
      ((List.enumFrom m w).foldl (fun t q => operate op t q.1 q.2) t)[p]? =
        some (segFold op e v (p + 1 - low (p + 1)) (p + 1)) := by
  intro w
  induction w with
  | nil =>
    intro m t hlen hw hinv p hp
    have hm : v.length ≤ m := by
      by_contra hc
      push_neg at hc
      have : (v.drop m).length = v.length - m := List.length_drop m v
      rw [hw] at this
      simp at this
      omega
    simp only [List.enumFrom, List.foldl_nil]
    rw [hinv p hp, show min m (p + 1) = p + 1 by omega]
  | cons x w ih =>
    intro m t hlen hw hinv p hp
    have hmlt : m < v.length := by
      by_contra hc
      push_neg at hc
      rw [List.drop_eq_nil_of_le hc] at hw
      exact (List.cons_ne_nil x w) hw.symm
    have hvm : v[m]? = some x := by
      have h0 : (v.drop m)[0]? = some x := by rw [hw]; simp
      rw [List.getElem?_drop] at h0
      simpa using h0
    have hdrop : v.drop (m + 1) = w := by
      have h1 : (v.drop m).drop 1 = v.drop (m + 1) := List.drop_drop ..
      rw [hw] at h1
      simpa using h1.symm
    simp only [List.enumFrom, List.foldl_cons]
    refine ih (m + 1) (operate op t m x) ?_ hdrop ?_ p hp
    · rw [operate_length, hlen]
    · intro q hq
      have hq' : q < t.length := by rw [hlen]; exact hq
      rw [operate_getElem? op t m x (by rw [hlen]; exact h64) q hq']
      by_cases hcond : m ≤ q ∧ q + 1 - low (q + 1) ≤ m
      · rw [if_pos hcond, hinv q hq,
          show min m (q + 1) = m by omega]
        have hsnoc := segFold_snoc op e v (a := q + 1 - low (q + 1)) (m := m)
          (by omega) hvm
        rw [show min (m + 1) (q + 1) = m + 1 by omega, hsnoc,
          hcomm (segFold op e v (q + 1 - low (q + 1)) m) x]
        rfl
      · rw [if_neg hcond, hinv q hq]
        rcases Nat.lt_or_ge q m with hqm | hqm
        · rw [show min m (q + 1) = q + 1 by omega,
            show min (m + 1) (q + 1) = q + 1 by omega]
        · have hlo : m < q + 1 - low (q + 1) := by omega
          rw [segFold_of_le op e v (show min m (q + 1) ≤ q + 1 - low (q + 1) by omega),
            segFold_of_le op e v (show min (m + 1) (q + 1) ≤ q + 1 - low (q + 1) by omega)]

/-- Slot characterisation of the constructed tree: slot `p` holds the
left-to-right fold of `v` over `[p + 1 - low (p + 1), p + 1)`. -/
theorem fromList_getElem? (op : α → α → α) (e : α)
    (hassoc : ∀ a b c, op (op a b) c = op a (op b c))
    (hidl : ∀ a, op e a = a) (hidr : ∀ a, op a e = a)
    (hcomm : ∀ a b, op a b = op b a)
    (v : List α) (h64 : v.length < 2 ^ 64) (p : Nat) (hp : p < v.length) :
    (fromList op e v)[p]? =
      some (segFold op e v (p + 1 - low (p + 1)) (p + 1)) := by
  unfold fromList
  refine fromList_loop op e hassoc hidl hidr hcomm v h64 v 0
    (withSize e v.length) ?_ ?_ ?_ p hp
  · simp [withSize]
  · rfl
  · intro q hq
    have : (withSize e v.length)[q]? = some e := by
      unfold withSize
      exact List.getElem?_replicate_of_lt hq
    rw [this, show min 0 (q + 1) = 0 by omega,
      segFold_of_le op e v (Nat.zero_le _)]

/-- Correctness of the prefix-fold loop on any tree whose slots satisfy the
Fenwick characterisation: the loop from `i` multiplies the prefix fold of
length `i` onto the left of the accumulator. -/
theorem foldGo_correct (op : α → α → α) (e : α)
    (hassoc : ∀ a b c, op (op a b) c = op a (op b c))
    (hidl : ∀ a, op e a = a) (hidr : ∀ a, op a e = a)
    (v t : List α) (hlen : t.length = v.length) (h64 : v.length < 2 ^ 64)
    (ht : ∀ p, p < v.length →
      t[p]? = some (segFold op e v (p + 1 - low (p + 1)) (p + 1))) :
    ∀ (fuel i : Nat) (r : α), i ≤ fuel → i ≤ v.length →
      foldGo op t fuel i r = some (op (seqFold op e v i) r) := by
  intro fuel
  induction fuel with
  | zero =>
    intro i r hif hi
    have h0 : i = 0 := by omega
    subst h0
    simp only [foldGo]
    rw [show seqFold op e v 0 = e from rfl, hidl]
    simp
  | succ fuel ih =>
    intro i r hif hi
    rcases Nat.eq_zero_or_pos i with rfl | hipos
    · simp only [foldGo]
      rw [show seqFold op e v 0 = e from rfl, hidl]
      simp
    · have hlow := low_pos hipos
      have hle : low i ≤ i := low_le
      have hti : t[i - 1]? = some (segFold op e v (i - low i) i) := by
        have h1 := ht (i - 1) (by omega)
        have hieq : i - 1 + 1 = i := by omega
        rw [hieq] at h1
        exact h1
      simp only [foldGo, if_neg (show ¬i = 0 by omega)]
      rw [hti, lsb_eq_low (show i < 2 ^ 64 by omega)]
      show foldGo op t fuel (i - low i) (op (segFold op e v (i - low i) i) r) =
        some (op (seqFold op e v i) r)
      rw [ih (i - low i) (op (segFold op e v (i - low i) i) r) (by omega) (by omega)]
      congr 1
      rw [← hassoc, seqFold_split op e hassoc hidl hidr v (show i - low i ≤ i by omega)]

/-- The prefix fold of a constructed tree is the sequential left-to-right
combine, for commutative monoids. -/
theorem foldTo_fromList_aux (op : α → α → α) (e : α)
    (hassoc : ∀ a b c, op (op a b) c = op a (op b c))
    (hidl : ∀ a, op e a = a) (hidr : ∀ a, op a e = a)
    (hcomm : ∀ a b, op a b = op b a)
    (v : List α) (h64 : v.length < 2 ^ 64) (k : Nat) (hk : k ≤ v.length) :
    foldTo op e (fromList op e v) k = some (seqFold op e v k) := by
  unfold foldTo
  rw [foldGo_correct op e hassoc hidl hidr v (fromList op e v)
    (fromList_length op e v) h64
    (fun p hp => fromList_getElem? op e hassoc hidl hidr hcomm v h64 p hp)
    k k e le_rfl hk, hidr]

/-- The prefix-fold loop completes whenever the walk starts within bounds. -/
theorem foldGo_isSome (op : α → α → α) (t : List α) (h64 : t.length < 2 ^ 64) :
    ∀ (fuel i : Nat) (r : α), i ≤ fuel → i ≤ t.length →
      (foldGo op t fuel i r).isSome := by
  intro fuel
  induction fuel with
  | zero =>
    intro i r h1 h2
    have h0 : i = 0 := by omega
    subst h0
    simp [foldGo]
  | succ fuel ih =>
    intro i r h1 h2
    rcases Nat.eq_zero_or_pos i with rfl | hipos
    · simp [foldGo]
    · have hlow := low_pos hipos
      have hle : low i ≤ i := low_le
      simp only [foldGo, if_neg (show ¬i = 0 by omega)]
      rw [List.getElem?_eq_getElem (show i - 1 < t.length by omega),
        lsb_eq_low (show i < 2 ^ 64 by omega)]
      exact ih (i - low i) (op t[i - 1] r) (by omega) (by omega)

/-- A prefix fold past the end of the tree hits an out-of-bounds slot at the
very first iteration. -/
theorem foldTo_oob (op : α → α → α) (e : α) (t : List α) (k : Nat)
    (hk : t.length < k) : foldTo op e t k = none := by
  unfold foldTo
  obtain ⟨k', rfl⟩ : ∃ k', k = k' + 1 := ⟨k - 1, by omega⟩
  simp only [foldGo, if_neg (show ¬k' + 1 = 0 by omega)]
  rw [List.getElem?_eq_none_iff.mpr (show t.length ≤ k' + 1 - 1 by omega)]

/-- Unfolding of the range fold when both prefix folds complete. -/
theorem foldRange_eq (op invOp : α → α → α) (e : α) (t : List α)
    (a b : Nat) {x y : α} (hb : foldTo op e t b = some x)
    (ha : foldTo op e t a = some y) :
    foldRange op invOp e t a b = some (invOp x y) := by
  unfold foldRange
  rw [ha, hb]

end Fenwick

theorem mulS3_assoc : ∀ a b c : Fin 6, mulS3 (mulS3 a b) c = mulS3 a (mulS3 b c) := by
  decide

theorem mulS3_id : ∀ a : Fin 6, mulS3 0 a = a ∧ mulS3 a 0 = a := by decide

theorem invOpS3_cancel : ∀ x y : Fin 6, invOpS3 (mulS3 x y) x = y := by decide

theorem mulS3_not_comm : mulS3 1 2 ≠ mulS3 2 1 := by decide

end RsLib

namespace RsLib

open Fenwick

/-- C9: the code's `gcd` is not the greatest common divisor.  The loop
maintains the textbook Euclidean pair, but the function returns
`a.div_euclid(b)` — the quotient of the final division — instead of `b`:
on `(12, 8)` the pairs are `(12, 8) → (8, 4)`, and the code returns
`8 / 4 = 2` while `gcd 12 8 = 4`; `lcm` inherits the error
(`12 / 2 * 8 = 48` instead of `24`). -/
theorem gcdCode_neq_gcd :
    gcdCode 12 8 = 2 ∧ Nat.gcd 12 8 = 4 ∧ lcmCode 12 8 = 48 ∧ Nat.lcm 12 8 = 24 := by
  decide

/-- C4 counterexample: on the spec's golden sequence (sum monoid, prefix sums
`1,3,6,10,15,21,27,35,44,54`), comparing against `4` does NOT return the
claimed `[1,1)`: the code (and the repository's own test) produce `[2,2)`,
the count of prefix sums that are `Less` than `4` (namely `1` and `3`). -/
theorem findRangeBy_cmp4_ne_1_1 :
    findRangeBy Nat.add 0 (fun x => compare x 4)
      (fromList Nat.add 0 [1, 2, 3, 4, 5, 6, 6, 8, 9, 10]) ≠ some (1, 1) := by
  decide

/-- C4 (amended): on the golden sequence, `find_range_by (⬝ <=> 6)` returns
`[2,3)` and `find_range_by (⬝ <=> 4)` returns the empty range `[2,2)` at the
Less-to-Greater crossing (prefix sums `1, 3` are less than `4`, prefix sum
`6` is greater), matching the repository's own `tests::find_range_by`. -/
theorem findRangeBy_golden :
    findRangeBy Nat.add 0 (fun x => compare x 6)
      (fromList Nat.add 0 [1, 2, 3, 4, 5, 6, 6, 8, 9, 10]) = some (2, 3) ∧
    findRangeBy Nat.add 0 (fun x => compare x 4)
      (fromList Nat.add 0 [1, 2, 3, 4, 5, 6, 6, 8, 9, 10]) = some (2, 2) := by
  decide

/-- C1: `find_range_by` fails to return the full `Equal` range when the
comparator ties across several prefix lengths.  For the sum-monoid sequence
`[1, 1, 5, 0]` (prefix sums `1, 2, 7, 7`) and the monotone comparator
`(⬝ <=> 7)`, the comparator is `Equal` at 0-indexed prefix-lengths `2` and
`3`, so the claimed result is `[2,4)`; the code returns `[3,4)` because the
second descent reads slots at the frozen break position `i` instead of each
cursor's own position, feeding the comparator accumulations that are not
prefix folds. -/
theorem findRangeBy_ties_wrong_range :
    findRangeBy Nat.add 0 (fun x => compare x 7)
      (fromList Nat.add 0 [1, 1, 5, 0]) = some (3, 4) ∧
    foldTo Nat.add 0 (fromList Nat.add 0 [1, 1, 5, 0]) 3 = some 7 ∧
    foldTo Nat.add 0 (fromList Nat.add 0 [1, 1, 5, 0]) 4 = some 7 ∧
    foldTo Nat.add 0 (fromList Nat.add 0 [1, 1, 5, 0]) 2 = some 2 := by
  decide

/-- C3: the returned pair can exceed the tree size, violating
`0 <= lower <= upper <= size`.  For the sum-monoid sequence `[0, 7, 0, 0]`
(prefix sums `0, 7, 7, 7`) and the monotone comparator `(⬝ <=> 7)`, the code
returns `(1, 5)` on a tree of size `4`: the upper cursor keeps absorbing the
frozen break slot, advancing past the end of the tree. -/
theorem findRangeBy_upper_exceeds_size :
    findRangeBy Nat.add 0 (fun x => compare x 7)
      (fromList Nat.add 0 [0, 7, 0, 0]) = some (1, 5) ∧
    (fromList Nat.add 0 [0, 7, 0, 0]).length = 4 := by
  decide

/-- C2 counterexample: over a non-commutative monoid the prefix fold is NOT
the left-to-right combine.  With the free monoid (`List Nat` under `++`,
identity `[]`) and `v = [[0], [1]]`, the tree stores `op value old` on
update (new value on the left), so `fold(..2)` evaluates to `[1, 0]` while
the sequential left-to-right combine of `v` is `[0, 1]`. -/
theorem foldTo_fromList_noncomm_cex :
    foldTo (· ++ ·) ([] : List Nat) (fromList (· ++ ·) [] [[0], [1]]) 2 ≠
      some (seqFold (· ++ ·) [] [[0], [1]] 2) := by
  decide

/-- C5 counterexample: over the non-commutative partial group S3
(`mulS3` with subtraction-like inverse `invOpS3`, see `mulS3_assoc`,
`mulS3_id`, `invOpS3_cancel`) and `v = [(0 1), (0 2)]`, the range fold
`fold(0..2)` evaluates to the reversed product `(0 2) * (0 1) = (0 1 2)`
while the direct left-to-right combine of `v[0..2]` is
`(0 1) * (0 2) = (0 2 1)`. -/
theorem foldRange_noncomm_cex :
    foldRange mulS3 invOpS3 (0 : Fin 6) (fromList mulS3 0 [1, 2]) 0 2 ≠
      some (segFold mulS3 0 [1, 2] 0 2) := by
  decide

/-- Shared helper: `operate` with an index at or past the length returns the
tree unchanged — the `while i < self.len()` guard fails on entry. -/
theorem operate_oob_eq {α : Type} (op : α → α → α) (tree : List α) (i : Nat)
    (x : α) (h : tree.length ≤ i) : operate op tree i x = tree := by
  simp [operate, operateGo, Nat.not_lt.mpr h]

/-- C6 counterexample: `operate` with `index >= size` does not fail fast; the
update loop's guard `i < self.len()` is false on entry, so the call returns
normally with the tree unchanged (the embedding is total precisely because
every slot access in the source is guarded). -/
theorem operate_oob_cex :
    operate Nat.add (fromList Nat.add 0 [7]) 5 42 = fromList Nat.add 0 [7] := by
  decide

/-- C6 (amended): calling `operate` with `index >= size` returns normally and
is a silent no-op — the tree (every slot and the length) is unchanged. -/
theorem operate_oob_silent {α : Type} (op : α → α → α) (tree : List α)
    (i : Nat) (x : α) (h : tree.length ≤ i) : operate op tree i x = tree :=
  operate_oob_eq op tree i x h

/-- Witness for `operate_oob_silent` at a concrete input. -/
theorem operate_oob_silent_witness :
    (fromList Nat.add 0 [1, 2, 3]).length ≤ 10 ∧
      operate Nat.add (fromList Nat.add 0 [1, 2, 3]) 10 99 =
        fromList Nat.add 0 [1, 2, 3] :=
  ⟨by decide, operate_oob_silent Nat.add (fromList Nat.add 0 [1, 2, 3]) 10 99 (by decide)⟩

/-- C10: `operate` with `index >= size` returns normally (the model is total:
all accesses are guarded) and leaves every backing-array slot and the length
identical — the result is the very same list. -/
theorem operate_oob_frame {α : Type} (op : α → α → α) (tree : List α)
    (i : Nat) (x : α) (h : tree.length ≤ i) : operate op tree i x = tree :=
  operate_oob_eq op tree i x h

/-- Witness for `operate_oob_frame` at a concrete input. -/
theorem operate_oob_frame_witness :
    (fromList Nat.add 0 [5, 5]).length ≤ 2 ∧
      operate Nat.add (fromList Nat.add 0 [5, 5]) 2 1 = fromList Nat.add 0 [5, 5] :=
  ⟨by decide, operate_oob_frame Nat.add (fromList Nat.add 0 [5, 5]) 2 1 (by decide)⟩

/-- C2 (amended): for every COMMUTATIVE monoid, every sequence `v` (of
`usize`-representable length) and every `k ≤ n`, the prefix fold `fold(..k)`
of the tree built by `From<&[M::Set]>` equals the sequential left-to-right
combine of `v[0..k]` (in particular `k = n` gives the combine of all of
`v`).  Commutativity is forced by the counterexample
`foldTo_fromList_noncomm_cex`: the update writes `op value old`, so slots
hold reversed products and only commutative monoids recover the
left-to-right combine. -/
theorem foldTo_fromList_eq_seqFold {α : Type} (op : α → α → α) (e : α)
    (hassoc : ∀ a b c, op (op a b) c = op a (op b c))
    (hidl : ∀ a, op e a = a) (hidr : ∀ a, op a e = a)
    (hcomm : ∀ a b, op a b = op b a)
    (v : List α) (h64 : v.length < 2 ^ 64) (k : Nat) (hk : k ≤ v.length) :
    foldTo op e (fromList op e v) k = some (seqFold op e v k) :=
  foldTo_fromList_aux op e hassoc hidl hidr hcomm v h64 k hk

/-- Witness for `foldTo_fromList_eq_seqFold` at a concrete input. -/
theorem foldTo_fromList_eq_seqFold_witness :
    (([1, 2, 3] : List Nat).length < 2 ^ 64 ∧ 2 ≤ ([1, 2, 3] : List Nat).length) ∧
      foldTo Nat.add 0 (fromList Nat.add 0 [1, 2, 3]) 2 =
        some (seqFold Nat.add 0 [1, 2, 3] 2) :=
  ⟨⟨by decide, by decide⟩,
    foldTo_fromList_eq_seqFold Nat.add 0 Nat.add_assoc Nat.zero_add Nat.add_zero
      Nat.add_comm [1, 2, 3] (by decide) 2 (by decide)⟩

/-- C5 (amended): over a COMMUTATIVE partial group (spec glossary: a monoid
with a subtraction-like `invOp` satisfying `invOp (op x y) x = y`), for all
`a ≤ b ≤ n` the range fold `fold(a..b)` of the constructed tree equals both
`invOp (fold(..b), fold(..a))` and the direct left-to-right combine of
`v[a..b]`.  Commutativity is forced by `foldRange_noncomm_cex`. -/
theorem foldRange_decomposition {α : Type} (op invOp : α → α → α) (e : α)
    (hassoc : ∀ a b c, op (op a b) c = op a (op b c))
    (hidl : ∀ a, op e a = a) (hidr : ∀ a, op a e = a)
    (hcomm : ∀ a b, op a b = op b a)
    (hcancel : ∀ x y, invOp (op x y) x = y)
    (v : List α) (h64 : v.length < 2 ^ 64) (a b : Nat)
    (hab : a ≤ b) (hb : b ≤ v.length) :
    foldRange op invOp e (fromList op e v) a b =
      some (invOp (seqFold op e v b) (seqFold op e v a)) ∧
    foldRange op invOp e (fromList op e v) a b = some (segFold op e v a b) := by
  have hB := foldTo_fromList_aux op e hassoc hidl hidr hcomm v h64 b hb
  have hA := foldTo_fromList_aux op e hassoc hidl hidr hcomm v h64 a
    (le_trans hab hb)
  have h1 := foldRange_eq op invOp e (fromList op e v) a b hB hA
  refine ⟨h1, ?_⟩
  rw [h1]
  have h2 : invOp (seqFold op e v b) (seqFold op e v a) = segFold op e v a b := by
    rw [← seqFold_split op e hassoc hidl hidr v hab]
    exact hcancel _ _
  rw [h2]

/-- Witness for `foldRange_decomposition` at a concrete input (sum partial
group on `Nat` with truncated subtraction as the inverse operation). -/
theorem foldRange_decomposition_witness :
    (([4, 7, 9] : List Nat).length < 2 ^ 64 ∧ 1 ≤ 3 ∧ 3 ≤ ([4, 7, 9] : List Nat).length) ∧
      (foldRange Nat.add Nat.sub 0 (fromList Nat.add 0 [4, 7, 9]) 1 3 =
        some (Nat.sub (seqFold Nat.add 0 [4, 7, 9] 3) (seqFold Nat.add 0 [4, 7, 9] 1)) ∧
      foldRange Nat.add Nat.sub 0 (fromList Nat.add 0 [4, 7, 9]) 1 3 =
        some (segFold Nat.add 0 [4, 7, 9] 1 3)) :=
  ⟨⟨by decide, by decide, by decide⟩,
    foldRange_decomposition Nat.add Nat.sub 0 Nat.add_assoc Nat.zero_add
      Nat.add_zero Nat.add_comm (fun x y => by show x + y - x = y; omega)
      [4, 7, 9] (by decide) 1 3
      (by decide) (by decide)⟩

/-- C7: the prefix fold `fold(..end)` panics (returns `none`, an
out-of-bounds slot access) precisely when `end` exceeds the tree size; for
`end ≤ n` the loop completes with every backing-array access in bounds. -/
theorem foldTo_none_iff {α : Type} (op : α → α → α) (e : α) (tree : List α)
    (h64 : tree.length < 2 ^ 64) (k : Nat) :
    foldTo op e tree k = none ↔ tree.length < k := by
  constructor
  · intro h
    by_contra hc
    push_neg at hc
    have hs : (foldTo op e tree k).isSome :=
      foldGo_isSome op tree h64 k k e le_rfl hc
    rw [h] at hs
    simp at hs
  · exact foldTo_oob op e tree k

/-- Witness for `foldTo_none_iff` at a concrete input. -/
theorem foldTo_none_iff_witness :
    (([5, 6] : List Nat).length < 2 ^ 64) ∧
      (foldTo Nat.add 0 [5, 6] 3 = none ↔ ([5, 6] : List Nat).length < 3) :=
  ⟨by decide, foldTo_none_iff Nat.add 0 [5, 6] (by decide) 3⟩

/-- C8: over a partial group (spec glossary; `invOp (op x y) x = y` and
`op x e = x`), folding the empty range `k..k` of any tree of size `n ≥ k`
returns the monoid identity. -/
theorem foldRange_empty_eq_id {α : Type} (op invOp : α → α → α) (e : α)
    (hidr : ∀ a, op a e = a)
    (hcancel : ∀ x y, invOp (op x y) x = y)
    (tree : List α) (h64 : tree.length < 2 ^ 64) (k : Nat)
    (hk : k ≤ tree.length) :
    foldRange op invOp e tree k k = some e := by
  have hs : (foldTo op e tree k).isSome :=
    foldGo_isSome op tree h64 k k e le_rfl hk
  obtain ⟨x, hx⟩ := Option.isSome_iff_exists.mp hs
  rw [foldRange_eq op invOp e tree k k hx hx]
  have h1 := hcancel x e
  rw [hidr] at h1
  rw [h1]

/-- Witness for `foldRange_empty_eq_id` at a concrete input. -/
theorem foldRange_empty_eq_id_witness :
    (([1, 2, 3] : List Nat).length < 2 ^ 64 ∧ 3 ≤ ([1, 2, 3] : List Nat).length) ∧
      foldRange Nat.add Nat.sub 0 [1, 2, 3] 3 3 = some 0 :=
  ⟨⟨by decide, by decide⟩,
    foldRange_empty_eq_id Nat.add Nat.sub 0 Nat.add_zero
      (fun x y => by show x + y - x = y; omega) [1, 2, 3] (by decide) 3 (by decide)⟩

end RsLib
